import Mathlib

set_option linter.unusedSectionVars false

/-!
Verification development for the constraint-generation engine of the
Andersen-style points-to analysis in `src/analysis/simple_anderson.rs`.

The engine is embedded shallowly:
* `Constraint`, `Location`, `LocationFactory` and the `ConstraintSet`
  interface live in the crate module `analysis/mod.rs`, which is not part of
  the sources at hand; they are modelled from the specification (§3, §4.1).
* The host compiler's MIR types (`mir::Place`, `mir::Operand`, `mir::Rvalue`,
  `mir::StatementKind`) are external collaborators; they are modelled with
  just the structure the engine inspects.  The type queries
  `is_any_ptr` are kept abstract as boolean oracles carried by the `Body`.
* The diagnostic side channel of the `log_err!` macro is modelled as a list
  of reported errors threaded through the engine state (`diagLog`).
* Panics (the `assert!` in `handle_ref`, and out-of-bounds/`unwrap` lookups
  in `local_to_location`) are modelled by `Option`: `none` means the Rust
  code panics.
-/

namespace Rudra

/-- Modelled from the spec: the five canonical constraint kinds (§3).  The
Rust `Constraint` enum is defined in `analysis/mod.rs`, outside the given
sources.  Each constraint carries the source location's id (`NodeId`,
a `usize`, modelled as `Nat`). -/
inductive Constraint : Type
  | AddrOf (src : Nat)
  | Copy (src : Nat)
  | Load (src : Nat)
  | Store (src : Nat)
  | StoreAddr (src : Nat)
deriving DecidableEq, Repr

/-- The source-location id a constraint refers to. -/
def Constraint.srcId : Constraint → Nat
  | .AddrOf s => s
  | .Copy s => s
  | .Load s => s
  | .Store s => s
  | .StoreAddr s => s

/-- Whether a constraint is a `Load`. -/
def Constraint.isLoad : Constraint → Bool
  | .Load _ => true
  | _ => false

/-- Whether a constraint is a `Store`. -/
def Constraint.isStore : Constraint → Bool
  | .Store _ => true
  | _ => false

/-- Modelled from the spec: an abstract memory location (§3): a dense 0-based
id plus the optional declared semantic type captured at allocation time.
The Rust `Location` type is defined in `analysis/mod.rs`, outside the given
sources.  `τ` stands for the host compiler's `Ty`. -/
structure Location (τ : Type) where
  id : Nat
  ty : Option τ
deriving DecidableEq, Repr

/-- Modelled from the spec: the Location Factory (§4.1): a monotone id
counter plus the table of declared types.  Defined in `analysis/mod.rs`,
outside the given sources. -/
structure LocationFactory (τ : Type) where
  counter : Nat
  types : List (Option τ)
deriving DecidableEq, Repr

/-- Modelled from the spec (§4.1): `next` returns a fresh location whose id
is the current count and increments the count; never fails. -/
def LocationFactory.next (f : LocationFactory τ) (ty : Option τ) :
    Location τ × LocationFactory τ :=
  (⟨f.counter, ty⟩, ⟨f.counter + 1, f.types ++ [ty]⟩)

/-- Modelled from the spec (§4.1): `clear` resets the id counter and the
type table to empty. -/
def LocationFactory.clear (_f : LocationFactory τ) : LocationFactory τ :=
  ⟨0, []⟩

/-- Modelled from the spec (§4.1): current number of allocated locations. -/
def LocationFactory.num_locations (f : LocationFactory τ) : Nat :=
  f.counter

/-- The empty factory (`LocationFactory::new`). -/
def LocationFactory.new : LocationFactory τ :=
  ⟨0, []⟩

/-- Host-compiler MIR projection element.  The engine interprets only
`Deref` (`lower_mir_place`, lines 125–135); every other projection kind is
collapsed into representative constructors. -/
inductive ProjectionElem : Type
  | Deref
  | Field (idx : Nat)
  | Index (localIdx : Nat)
  | OtherProjection
deriving DecidableEq, Repr

/-- Host-compiler `mir::Place`: a base local plus a projection list. -/
structure MirPlace where
  localIdx : Nat
  projection : List ProjectionElem
deriving DecidableEq, Repr

/-- Host-compiler `mir::Operand`.  `Constant` payloads are irrelevant to the
engine and omitted. -/
inductive Operand : Type
  | Copy (place : MirPlace)
  | Move (place : MirPlace)
  | Constant
deriving DecidableEq, Repr

/-- Host-compiler `mir::Rvalue`, restricted to the shape the engine matches
on (lines 212–229).  Payloads the engine ignores (cast kinds, regions,
borrow kinds, operand pairs of binary ops) are omitted; all remaining
rvalue kinds are collapsed into `OtherRvalue`. -/
inductive Rvalue : Type
  | Use (operand : Operand)
  | Cast (operand : Operand)
  | AddressOf (place : MirPlace)
  | Ref (place : MirPlace)
  | BinaryOp
  | CheckedBinaryOp
  | UnaryOp
  | OtherRvalue
deriving DecidableEq, Repr

/-- Host-compiler `mir::StatementKind`, restricted to the shape the engine
matches on (lines 210–242); all statement kinds other than assignments,
storage markers and `Nop` are collapsed into `OtherStatement`. -/
inductive StatementKind : Type
  | Assign (dst : MirPlace) (rvalue : Rvalue)
  | StorageLive (localIdx : Nat)
  | StorageDead (localIdx : Nat)
  | Nop
  | OtherStatement
deriving DecidableEq, Repr

/-- `SimpleAndersonError` (lines 16–45).  `Backtrace` fields and the
`MirInstantiationError` payload of `BodyNotFound` are diagnostic-only and
omitted. -/
inductive SimpleAndersonError : Type
  | ConstraintCheck
  | BodyNotFound
  | UnsupportedProjection (place : MirPlace)
  | UnsupportedRvalue (rvalue : Rvalue)
  | UnsupportedStatement (statement : StatementKind)
  | UnsupportedConstantPointer (dst : MirPlace) (src : Operand)
  | UnsupportedPointerCast (dst : MirPlace) (src : Operand)
deriving DecidableEq, Repr

/-- `AnalysisErrorKind`, modelled from its use in the given sources (the
enum itself lives outside them); only the two variants the file mentions
are needed. -/
inductive AnalysisErrorKind : Type
  | Unimplemented
  | OutOfScope
deriving DecidableEq, Repr

/-- `SimpleAndersonError::kind` (lines 47–61). -/
def SimpleAndersonError.kind : SimpleAndersonError → AnalysisErrorKind
  | .ConstraintCheck => .Unimplemented
  | .BodyNotFound => .OutOfScope
  | .UnsupportedProjection _ => .Unimplemented
  | .UnsupportedRvalue _ => .Unimplemented
  | .UnsupportedStatement _ => .Unimplemented
  | .UnsupportedConstantPointer _ _ => .Unimplemented
  | .UnsupportedPointerCast _ _ => .Unimplemented

/-- Whether an error is the `ConstraintCheck` variant. -/
def SimpleAndersonError.isConstraintCheck : SimpleAndersonError → Bool
  | .ConstraintCheck => true
  | _ => false

/-- The analysis-internal `Place` (lines 63–67): a base location plus an
indirection depth. -/
structure Place (τ : Type) where
  base : Location τ
  deref_count : Nat
deriving DecidableEq, Repr

/-- A function body as the engine consumes it: the ordered local
declarations (their types), the basic blocks of statements, and the two
pointer-ness oracles standing for the host compiler's
`Operand::ty(..).is_any_ptr()` and `Place::ty(..).ty.is_any_ptr()`
queries (lines 152–166), which are external to this crate. -/
structure Body (τ : Type) where
  local_decls : List τ
  basic_blocks : List (List StatementKind)
  operand_is_ptr : Operand → Bool
  place_is_ptr : MirPlace → Bool

/-- Association-list lookup keyed by decidable equality
(models `HashMap` indexing). -/
def mapLookup {ι α : Type} [DecidableEq ι] : List (ι × α) → ι → Option α
  | [], _ => none
  | (k, v) :: rest, key => if key = k then some v else mapLookup rest key

/-- Association-list insert (models `HashMap::insert`). -/
def mapInsert {ι α : Type} [DecidableEq ι] : List (ι × α) → ι → α → List (ι × α)
  | [], key, v => [(key, v)]
  | (k, v') :: rest, key, v =>
    if key = k then (key, v) :: rest else (k, v') :: mapInsert rest key v

/-- The engine state `SimpleAnderson` (lines 69–77).  The `rcx` field (the
host compiler context) is kept outside the state and passed to `visit_body`
and `analyze` as the body-resolution function.  `diagLog` models the
diagnostic side channel written by the `log_err!` macro (the macro is part
of the crate prelude, outside the given sources; the spec describes the
channel in §6 "Side channel").  `ι` stands for `Instance`. -/
structure SimpleAnderson (τ ι : Type) where
  location_factory : LocationFactory τ
  call_stack : List ι
  constraints : List (List Constraint)
  local_var_map : List (ι × List (Location τ))
  diagLog : List SimpleAndersonError
deriving DecidableEq, Repr

namespace SimpleAnderson

variable {τ ι : Type} [DecidableEq ι]

/-- `SimpleAnderson::new` (lines 101–109), minus the `rcx` field. -/
def new : SimpleAnderson τ ι :=
  ⟨LocationFactory.new, [], [], [], []⟩

/-- `SimpleAnderson::clear` (lines 111–115).  Faithful to the source: it
clears the location factory, the call stack and the constraint buckets, but
not `local_var_map` (and the diagnostic channel is external and untouched). -/
def clear (s : SimpleAnderson τ ι) : SimpleAnderson τ ι :=
  { s with
    location_factory := s.location_factory.clear
    call_stack := []
    constraints := [] }

/-- `ConstraintSet::num_locations` (lines 82–84). -/
def num_locations (s : SimpleAnderson τ ι) : Nat :=
  s.location_factory.num_locations

/-- `ConstraintSet::constraints` (lines 86–97): the flattened
`(location id, constraint)` sequence, bucket by bucket for ids
`0 .. num_locations`.  The source indexes `self.constraints[location_id]`;
`getD` models that indexing (the well-formedness invariant keeps it in
bounds). -/
def constraintsList (s : SimpleAnderson τ ι) : List (Nat × Constraint) :=
  ((List.range s.num_locations).map fun location_id =>
    (s.constraints.getD location_id []).map fun c => (location_id, c)).flatten

/-- Modelled from the spec: the `log_err!` prelude macro (outside the given
sources) reports a failure on the diagnostic channel (§6); modelled as
appending to `diagLog`. -/
def log_err (s : SimpleAnderson τ ι) (e : SimpleAndersonError) : SimpleAnderson τ ι :=
  { s with diagLog := s.diagLog ++ [e] }

/-- `SimpleAnderson::local_to_location` (lines 117–119).  The source
unwraps the top of the call stack and indexes the hash map and the vector;
`none` models the panic when any of the three is missing. -/
def local_to_location (s : SimpleAnderson τ ι) (localIdx : Nat) : Option (Location τ) :=
  match s.call_stack.getLast? with
  | none => none
  | some inst =>
    match mapLookup s.local_var_map inst with
    | none => none
    | some locs => locs.get? localIdx

/-- The projection loop of `lower_mir_place` (lines 124–135): count `Deref`
projections, failing on the first projection of any other kind. -/
def projLoop (place : MirPlace) : List ProjectionElem → Nat →
    Except SimpleAndersonError Nat
  | [], count => .ok count
  | .Deref :: rest, count => projLoop place rest (count + 1)
  | _ :: _, _ => .error (.UnsupportedProjection place)

/-- `SimpleAnderson::lower_mir_place` (lines 121–141): resolve the base
local to its location, then count the dereference projections.  The outer
`Option` models a panic inside `local_to_location`; the `Except` is the
`AnalysisResult`. -/
def lower_mir_place (s : SimpleAnderson τ ι) (place : MirPlace) :
    Option (Except SimpleAndersonError (Place τ)) :=
  match s.local_to_location place.localIdx with
  | none => none
  | some base =>
    match projLoop place place.projection 0 with
    | .error e => some (.error e)
    | .ok count => some (.ok ⟨base, count⟩)

/-- `SimpleAnderson::analyzed` (lines 143–145). -/
def analyzed (s : SimpleAnderson τ ι) (inst : ι) : Bool :=
  (mapLookup s.local_var_map inst).isSome

/-- `SimpleAnderson::gen_location` (lines 147–150): push one new empty
constraint bucket, then take a fresh location from the factory. -/
def gen_location (s : SimpleAnderson τ ι) (ty : Option τ) :
    Location τ × SimpleAnderson τ ι :=
  let s1 := { s with constraints := s.constraints ++ [[]] }
  let p := s1.location_factory.next ty
  (p.1, { s1 with location_factory := p.2 })

/-- `HashSet::insert` on a bucket: add the constraint unless already
present (set semantics; the source's hash-iteration order is not
observable through any claim proved here). -/
def bucketInsert (c : Constraint) (b : List Constraint) : List Constraint :=
  if c ∈ b then b else b ++ [c]

/-- `SimpleAnderson::add_constraint` (lines 168–170): insert into the
bucket indexed by `dst_id`.  `List.set`/`getD` model the
`self.constraints[dst_id]` indexing. -/
def add_constraint (s : SimpleAnderson τ ι) (dst_id : Nat) (c : Constraint) :
    SimpleAnderson τ ι :=
  { s with
    constraints :=
      s.constraints.set dst_id (bucketInsert c (s.constraints.getD dst_id [])) }

/-- The `while deref_count >= 1` peeling loop of `handle_place_to_place`
(lines 342–350), parameterised by the remaining depth: allocate a fresh
location, emit `Load(current base)` at it, continue from the fresh
location with one less indirection. -/
def peelGe : Nat → SimpleAnderson τ ι → Location τ →
    SimpleAnderson τ ι × Location τ
  | 0, s, base => (s, base)
  | n + 1, s, base =>
    let p := s.gen_location none
    let s2 := p.2.add_constraint p.1.id (.Load base.id)
    peelGe n s2 p.1

/-- The `while deref_count > 1` peeling loop (lines 299–307, 330–338,
351–359), parameterised by the remaining depth. -/
def peelGt : Nat → SimpleAnderson τ ι → Location τ →
    SimpleAnderson τ ι × Location τ
  | 0, s, base => (s, base)
  | 1, s, base => (s, base)
  | n + 2, s, base =>
    let p := s.gen_location none
    let s2 := p.2.add_constraint p.1.id (.Load base.id)
    peelGt (n + 1) s2 p.1

/-- `SimpleAnderson::handle_place_to_place` (lines 326–363). -/
def handle_place_to_place (s : SimpleAnderson τ ι) (dst src : Place τ) :
    SimpleAnderson τ ι :=
  match dst.deref_count, src.deref_count with
  | 0, 0 => s.add_constraint dst.base.id (.Copy src.base.id)
  | 0, _ =>
    let q := peelGt src.deref_count s src.base
    q.1.add_constraint dst.base.id (.Load q.2.id)
  | _, _ =>
    let q := peelGe src.deref_count s src.base
    let r := peelGt dst.deref_count q.1 dst.base
    r.1.add_constraint r.2.id (.Store q.2.id)

/-- The body of `handle_ref` after the assertion and the two place
lowerings succeed (lines 295–323). -/
def handle_ref_core (s : SimpleAnderson τ ι) (dst src : Place τ) :
    SimpleAnderson τ ι :=
  if src.deref_count = 0 then
    if dst.deref_count = 0 then
      s.add_constraint dst.base.id (.AddrOf src.base.id)
    else
      let q := peelGt dst.deref_count s dst.base
      q.1.add_constraint q.2.id (.StoreAddr src.base.id)
  else
    s.handle_place_to_place dst ⟨src.base, src.deref_count - 1⟩

/-- The part of `handle_ref` after the `assert!(dst_is_ptr)` check
(lines 292–323): lower both places (skipping the statement, with the
failure reported on the diagnostic channel, when a lowering fails — the
`unwrap_or!(.. => return)` path) and run the core. -/
def handle_ref_checked (s : SimpleAnderson τ ι) (dst src : MirPlace) :
    Option (SimpleAnderson τ ι) :=
  match s.lower_mir_place dst with
  | none => none
  | some (.error e) => some (s.log_err e)
  | some (.ok dstPlace) =>
    match s.lower_mir_place src with
    | none => none
    | some (.error e) => some (s.log_err e)
    | some (.ok srcPlace) => some (s.handle_ref_core dstPlace srcPlace)

/-- `SimpleAnderson::handle_ref` (lines 285–324).  The `assert!(dst_is_ptr)`
(line 290) is modelled by returning `none` (panic) when the destination is
not pointer-typed. -/
def handle_ref (body : Body τ) (s : SimpleAnderson τ ι) (dst src : MirPlace) :
    Option (SimpleAnderson τ ι) :=
  let dst_is_ptr := body.place_is_ptr dst
  if dst_is_ptr then s.handle_ref_checked dst src else none

/-- `SimpleAnderson::handle_assign` (lines 251–283). -/
def handle_assign (body : Body τ) (s : SimpleAnderson τ ι)
    (dst : MirPlace) (src : Operand) : Option (SimpleAnderson τ ι) :=
  let src_is_ptr := body.operand_is_ptr src
  let dst_is_ptr := body.place_is_ptr dst
  if src_is_ptr && dst_is_ptr then
    match src with
    | .Copy srcPlace | .Move srcPlace =>
      match s.lower_mir_place dst with
      | none => none
      | some (.error e) => some (s.log_err e)
      | some (.ok dstPlace) =>
        match s.lower_mir_place srcPlace with
        | none => none
        | some (.error e) => some (s.log_err e)
        | some (.ok srcP) => some (s.handle_place_to_place dstPlace srcP)
    | .Constant => some (s.log_err (.UnsupportedConstantPointer dst src))
  else if dst_is_ptr && !src_is_ptr then
    some (s.log_err (.UnsupportedConstantPointer dst src))
  else
    some s

/-- The statement dispatch of `visit_body` (lines 208–242). -/
def handle_statement (body : Body τ) (s : SimpleAnderson τ ι)
    (stmt : StatementKind) : Option (SimpleAnderson τ ι) :=
  match stmt with
  | .Assign dst rvalue =>
    match rvalue with
    | .Use operand => handle_assign body s dst operand
    | .Cast operand => handle_assign body s dst operand
    | .AddressOf src => handle_ref body s dst src
    | .Ref src => handle_ref body s dst src
    | .BinaryOp => some s
    | .CheckedBinaryOp => some s
    | .UnaryOp => some s
    | .OtherRvalue => some (s.log_err (.UnsupportedRvalue .OtherRvalue))
  | .StorageLive _ => some s
  | .StorageDead _ => some s
  | .Nop => some s
  | .OtherStatement => some (s.log_err (.UnsupportedStatement .OtherStatement))

/-- The inner statement loop of `visit_body`, threading the panic
possibility. -/
def runStatements (body : Body τ) (acc : Option (SimpleAnderson τ ι))
    (stmts : List StatementKind) : Option (SimpleAnderson τ ι) :=
  stmts.foldl (fun a stmt => a.bind fun s => handle_statement body s stmt) acc

/-- The outer basic-block loop of `visit_body` (lines 207–246). -/
def runBlocks (body : Body τ) (acc : Option (SimpleAnderson τ ι))
    (blocks : List (List StatementKind)) : Option (SimpleAnderson τ ι) :=
  blocks.foldl (fun a blk => runStatements body a blk) acc

/-- The local-variable instantiation loop of `visit_body` (lines 195–199):
one `gen_location(Some(ty))` per declared local, in declaration order. -/
def genLocations (s : SimpleAnderson τ ι) :
    List τ → SimpleAnderson τ ι × List (Location τ)
  | [] => (s, [])
  | ty :: rest =>
    let p := s.gen_location (some ty)
    let q := genLocations p.2 rest
    (q.1, p.1 :: q.2)

/-- `SimpleAnderson::visit_body` (lines 179–249).  `rcx` is the
body-resolution function (`self.rcx.instance_body`); `none` models an
instantiation error (`BodyNotFound`). -/
def visit_body (rcx : ι → Option (Body τ)) (s : SimpleAnderson τ ι)
    (inst : ι) : Option (SimpleAnderson τ ι) :=
  if s.analyzed inst then
    some s
  else
    match rcx inst with
    | none => some (s.log_err .BodyNotFound)
    | some body =>
      let p := s.genLocations body.local_decls
      let s2 := { p.1 with
        local_var_map := mapInsert p.1.local_var_map inst p.2
        call_stack := p.1.call_stack ++ [inst] }
      (runBlocks body (some s2) body.basic_blocks).map fun s3 =>
        { s3 with call_stack := s3.call_stack.dropLast }

/-- `SimpleAnderson::analyze` (lines 173–177): clear, visit, and report
`ConstraintCheck` on the diagnostic channel. -/
def analyze (rcx : ι → Option (Body τ)) (s : SimpleAnderson τ ι)
    (inst : ι) : Option (SimpleAnderson τ ι) :=
  (visit_body rcx s.clear inst).map fun s2 => s2.log_err .ConstraintCheck

/-- The buckets created by a run of the `Load`-chaining peel loop that
starts from source-location id `srcId` when the next fresh id is `c`:
each fresh bucket holds the single `Load` of the previous link. -/
def chainGe : Nat → Nat → Nat → List (List Constraint)
  | _, _, 0 => []
  | srcId, c, n + 1 => [Constraint.Load srcId] :: chainGe c (c + 1) n

/-- Number of `ConstraintCheck` reports in a diagnostic log. -/
def countCC (l : List SimpleAndersonError) : Nat :=
  l.countP fun e => e.isConstraintCheck

/-- Well-formedness: the number of constraint buckets equals the location
count (spec §3: "size always equals the current location count"). -/
def wf (s : SimpleAnderson τ ι) : Prop :=
  s.constraints.length = s.location_factory.counter

/-- Every bucket is duplicate-free (the `HashSet` representation
invariant). -/
def bucketsNodup (s : SimpleAnderson τ ι) : Prop :=
  ∀ b ∈ s.constraints, b.Nodup

/-- Every stored constraint refers to an already-allocated location. -/
def closedRefs (s : SimpleAnderson τ ι) : Prop :=
  ∀ b ∈ s.constraints, ∀ c ∈ b, c.srcId < s.location_factory.counter

/-- All constraints of all buckets, flattened. -/
def flatC (s : SimpleAnderson τ ι) : List Constraint :=
  s.constraints.flatten

/-- Number of stored `Load` constraints. -/
def loadCount (s : SimpleAnderson τ ι) : Nat :=
  s.flatC.countP fun c => c.isLoad

/-- Number of stored `Store` constraints. -/
def storeCount (s : SimpleAnderson τ ι) : Nat :=
  s.flatC.countP fun c => c.isStore

/-- Total number of stored constraints. -/
def totalCount (s : SimpleAnderson τ ι) : Nat :=
  s.flatC.length

end SimpleAnderson

/-- Concrete fixture: a body with one declared local (the return slot),
no statements, and nothing pointer-typed. -/
def oneLocalBody : Body Nat :=
  ⟨[0], [], fun _ => false, fun _ => false⟩

/-- Concrete fixture: a context that resolves instance `0` to
`oneLocalBody` and no other instance. -/
def rcx1 : Nat → Option (Body Nat) :=
  fun inst => if inst = 0 then some oneLocalBody else none

/-- Concrete fixture: an engine state mid-traversal of instance `0`, with
two allocated locations (both buckets empty) bound to locals `0` and `1`. -/
def stFrame : SimpleAnderson Nat Nat :=
  ⟨⟨2, [none, none]⟩, [0], [[], []], [(0, [⟨0, none⟩, ⟨1, none⟩])], []⟩

/-- Concrete fixture: a body whose pointer oracles answer `true` for every
operand and every place. -/
def allPtrBody : Body Nat :=
  ⟨[0, 0], [], fun _ => true, fun _ => true⟩

/-- Concrete fixture: a body whose operands are pointer-typed but whose
places are not. -/
def ptrSrcOnlyBody : Body Nat :=
  ⟨[0, 0], [], fun _ => true, fun _ => false⟩

end Rudra

namespace Rudra

namespace SimpleAnderson

variable {τ ι : Type} [DecidableEq ι]

/-- `clear` produces a well-formed state: zero buckets, zero locations. -/
theorem wf_clear (s : SimpleAnderson τ ι) : wf s.clear := rfl

/-- `clear` does not touch the memoization table. -/
theorem clear_local_var_map (s : SimpleAnderson τ ι) :
    s.clear.local_var_map = s.local_var_map := rfl

/-- `clear` does not touch the diagnostic channel. -/
theorem clear_diagLog (s : SimpleAnderson τ ι) :
    s.clear.diagLog = s.diagLog := rfl

/-- Constraint-bucket effect of `gen_location`: one empty bucket pushed. -/
theorem gen_location_constraints (s : SimpleAnderson τ ι) (ty : Option τ) :
    (s.gen_location ty).2.constraints = s.constraints ++ [[]] := rfl

/-- Counter effect of `gen_location`. -/
theorem gen_location_counter (s : SimpleAnderson τ ι) (ty : Option τ) :
    (s.gen_location ty).2.location_factory.counter =
      s.location_factory.counter + 1 := rfl

/-- The id returned by `gen_location` is the pre-state count. -/
theorem gen_location_id (s : SimpleAnderson τ ι) (ty : Option τ) :
    (s.gen_location ty).1.id = s.location_factory.counter := rfl

/-- `gen_location` does not log. -/
theorem gen_location_diagLog (s : SimpleAnderson τ ι) (ty : Option τ) :
    (s.gen_location ty).2.diagLog = s.diagLog := rfl

/-- `gen_location` preserves well-formedness: the bucket and the location
are created together. -/
theorem wf_gen_location (s : SimpleAnderson τ ι) (ty : Option τ) (hwf : wf s) :
    wf (s.gen_location ty).2 := by
  simpa [wf, gen_location, LocationFactory.next] using hwf

/-- `add_constraint` does not touch the factory. -/
theorem add_constraint_location_factory (s : SimpleAnderson τ ι) (i : Nat)
    (c : Constraint) : (s.add_constraint i c).location_factory = s.location_factory := rfl

/-- `add_constraint` does not log. -/
theorem add_constraint_diagLog (s : SimpleAnderson τ ι) (i : Nat)
    (c : Constraint) : (s.add_constraint i c).diagLog = s.diagLog := rfl

/-- `add_constraint` keeps the bucket count. -/
theorem add_constraint_length (s : SimpleAnderson τ ι) (i : Nat) (c : Constraint) :
    (s.add_constraint i c).constraints.length = s.constraints.length := by
  simp [add_constraint]

/-- `add_constraint` preserves well-formedness. -/
theorem wf_add_constraint (s : SimpleAnderson τ ι) (i : Nat) (c : Constraint)
    (hwf : wf s) : wf (s.add_constraint i c) := by
  simpa [wf, add_constraint_length] using hwf

/-- Inserting into the just-pushed empty bucket at the end. -/
theorem set_insert_at_end (l : List (List Constraint)) (c : Constraint) :
    (l ++ [[]]).set l.length
      (bucketInsert c ((l ++ [[]]).getD l.length [])) = l ++ [[c]] := by
  have h1 : (l ++ [[]]).getD l.length [] = ([] : List Constraint) := by
    rw [List.getD_append_right _ _ _ _ (le_refl _)]
    simp
  rw [h1]
  have h2 : bucketInsert c [] = [c] := by simp [bucketInsert]
  rw [h2, List.set_append]
  simp

/-- One unfolding step of the `Load`-chaining loop, on a well-formed
state. -/
theorem peelGe_succ (n : Nat) (s : SimpleAnderson τ ι) (base : Location τ)
    (hwf : wf s) :
    peelGe (n + 1) s base =
      peelGe n
        { s with
          constraints := s.constraints ++ [[Constraint.Load base.id]]
          location_factory :=
            ⟨s.location_factory.counter + 1, s.location_factory.types ++ [none]⟩ }
        ⟨s.location_factory.counter, none⟩ := by
  have hset := set_insert_at_end s.constraints (Constraint.Load base.id)
  rw [hwf] at hset
  simp only [peelGe, gen_location, add_constraint, LocationFactory.next,
    gen_location_constraints]
  rw [hset]

/-- Full characterization of the `while deref_count >= 1` peeling loop:
the constraint buckets are extended by exactly the `Load` chain, the
counter grows by the depth, and the final location is the last fresh id
(or the starting base when the depth is zero). -/
theorem peelGe_spec (n : Nat) :
    ∀ (s : SimpleAnderson τ ι) (base : Location τ), wf s →
      (peelGe n s base).1.constraints =
          s.constraints ++ chainGe base.id s.location_factory.counter n ∧
      (peelGe n s base).1.location_factory.counter =
          s.location_factory.counter + n ∧
      (peelGe n s base).2.id =
          (if n = 0 then base.id else s.location_factory.counter + n - 1) := by
  induction n with
  | zero =>
    intro s base _
    simp [peelGe, chainGe]
  | succ n ih =>
    intro s base hwf
    rw [peelGe_succ n s base hwf]
    set s' : SimpleAnderson τ ι :=
      { s with
        constraints := s.constraints ++ [[Constraint.Load base.id]]
        location_factory :=
          ⟨s.location_factory.counter + 1, s.location_factory.types ++ [none]⟩ }
      with hs'
    have hc' : s'.location_factory.counter = s.location_factory.counter + 1 := rfl
    have hcs' : s'.constraints = s.constraints ++ [[Constraint.Load base.id]] := rfl
    have hwfe : s.constraints.length = s.location_factory.counter := hwf
    have hwf' : wf s' := by
      show s'.constraints.length = s'.location_factory.counter
      rw [hcs', hc']
      simp [hwfe]
    obtain ⟨h1, h2, h3⟩ := ih s' ⟨s.location_factory.counter, none⟩ hwf'
    refine ⟨?_, ?_, ?_⟩
    · rw [h1, hcs', hc', List.append_assoc]
      rfl
    · rw [h2, hc']
      omega
    · rw [h3, hc']
      cases n with
      | zero => simp
      | succ m =>
        have hne1 : (m + 1 : Nat) ≠ 0 := Nat.succ_ne_zero m
        have hne2 : (m + 1 + 1 : Nat) ≠ 0 := Nat.succ_ne_zero (m + 1)
        rw [if_neg hne1, if_neg hne2]
        omega

/-- The `while > 1` loop is the `while >= 1` loop at one less depth. -/
theorem peelGt_eq_peelGe (n : Nat) :
    ∀ (s : SimpleAnderson τ ι) (base : Location τ),
      peelGt (n + 1) s base = peelGe n s base := by
  induction n with
  | zero => intro s base; rfl
  | succ n ih =>
    intro s base
    show peelGt (n + 2) s base = peelGe (n + 1) s base
    simp only [peelGt, peelGe]
    exact ih _ _

/-- Depth `0` leaves the `while > 1` loop untouched. -/
theorem peelGt_zero (s : SimpleAnderson τ ι) (base : Location τ) :
    peelGt 0 s base = (s, base) := rfl

end SimpleAnderson

end Rudra

namespace Rudra

namespace SimpleAnderson

variable {τ ι : Type} [DecidableEq ι]

/-- The chain bucket list has one bucket per peeled level. -/
theorem chainGe_length (n : Nat) : ∀ s0 c : Nat, (chainGe s0 c n).length = n := by
  induction n with
  | zero => intro s0 c; rfl
  | succ n ih => intro s0 c; simp [chainGe, ih]

/-- Counting constraints in a chain under a predicate that is constant on
`Load`s. -/
theorem chainGe_countP (p : Constraint → Bool) (b0 : Bool)
    (hp : ∀ x, p (Constraint.Load x) = b0) (n : Nat) :
    ∀ s0 c : Nat,
      (chainGe s0 c n).flatten.countP p = n * (if b0 then 1 else 0) := by
  induction n with
  | zero => intro s0 c; simp [chainGe]
  | succ n ih =>
    intro s0 c
    have h := ih c (c + 1)
    simp only [chainGe, List.flatten_cons, List.countP_append, h,
      List.countP_cons, List.countP_nil, hp]
    cases b0 <;> simp <;> omega

/-- Every chain bucket is a single `Load`. -/
theorem chainGe_buckets (n : Nat) :
    ∀ s0 c : Nat, ∀ bk ∈ chainGe s0 c n, ∃ x, bk = [Constraint.Load x] := by
  induction n with
  | zero => intro s0 c bk h; simp [chainGe] at h
  | succ n ih =>
    intro s0 c bk h
    simp only [chainGe, List.mem_cons] at h
    rcases h with h | h
    · exact ⟨s0, h⟩
    · exact ih c (c + 1) bk h

/-- Every constraint in a chain is a `Load` of either the starting base or
one of the fresh locations strictly below the last one. -/
theorem chainGe_refs (n : Nat) :
    ∀ s0 c : Nat, ∀ cc ∈ (chainGe s0 c n).flatten,
      ∃ x, cc = Constraint.Load x ∧ (x = s0 ∨ (c ≤ x ∧ x + 1 < c + n)) := by
  induction n with
  | zero => intro s0 c cc h; simp [chainGe] at h
  | succ n ih =>
    intro s0 c cc h
    simp only [chainGe, List.flatten_cons, List.singleton_append,
      List.mem_cons] at h
    rcases h with h | h
    · exact ⟨s0, h, Or.inl rfl⟩
    · obtain ⟨x, hx, hor⟩ := ih c (c + 1) cc h
      have hn : n ≠ 0 := by
        rintro rfl
        simp [chainGe] at h
      refine ⟨x, hx, Or.inr ?_⟩
      rcases hor with h1 | ⟨h1, h2⟩ <;> omega

/-- An in-bounds `getD` is a member. -/
theorem getD_mem {α : Type} (l : List α) (i : Nat) (d : α) (hi : i < l.length) :
    l.getD i d ∈ l := by
  rw [List.getD_eq_getElem?_getD, List.getElem?_eq_getElem hi]
  simpa using List.getElem_mem hi

/-- Inserting a genuinely new constraint into bucket `i` permutes the
flattened constraint collection to a `cons`. -/
theorem flatten_set_insert_perm (c : Constraint) :
    ∀ (l : List (List Constraint)) (i : Nat), i < l.length → c ∉ l.getD i [] →
      (l.set i (bucketInsert c (l.getD i []))).flatten.Perm (c :: l.flatten) := by
  intro l
  induction l with
  | nil => intro i hi _; simp at hi
  | cons b t ihl =>
    intro i hi hc
    cases i with
    | zero =>
      have hgd : (b :: t).getD 0 [] = b := rfl
      rw [hgd] at hc
      show ((bucketInsert c ((b :: t).getD 0 [])) :: t).flatten.Perm _
      rw [hgd, show bucketInsert c b = b ++ [c] from by simp [bucketInsert, hc]]
      simp only [List.flatten_cons, List.append_assoc, List.singleton_append]
      exact List.perm_middle
    | succ j =>
      have hgd : (b :: t).getD (j + 1) [] = t.getD j [] := rfl
      rw [hgd] at hc
      have hj : j < t.length := by simpa using hi
      have hp := ihl j hj hc
      show (b :: t.set j (bucketInsert c ((b :: t).getD (j + 1) []))).flatten.Perm _
      rw [hgd]
      simp only [List.flatten_cons]
      exact (hp.append_left b).trans List.perm_middle

/-- Count change of a genuinely-new insert. -/
theorem countP_set_insert (p : Constraint → Bool) (l : List (List Constraint))
    (i : Nat) (c : Constraint) (hi : i < l.length) (hc : c ∉ l.getD i []) :
    (l.set i (bucketInsert c (l.getD i []))).flatten.countP p
      = l.flatten.countP p + (if p c then 1 else 0) := by
  rw [(flatten_set_insert_perm c l i hi hc).countP_eq p, List.countP_cons]

/-- Length change of a genuinely-new insert. -/
theorem length_set_insert (l : List (List Constraint)) (i : Nat)
    (c : Constraint) (hi : i < l.length) (hc : c ∉ l.getD i []) :
    (l.set i (bucketInsert c (l.getD i []))).flatten.length
      = l.flatten.length + 1 := by
  rw [(flatten_set_insert_perm c l i hi hc).length_eq, List.length_cons]

/-- The peel loop does not touch the diagnostic channel, the call stack or
the memoization table. -/
theorem peelGe_other_fields (n : Nat) :
    ∀ (s : SimpleAnderson τ ι) (base : Location τ),
      (peelGe n s base).1.diagLog = s.diagLog ∧
      (peelGe n s base).1.call_stack = s.call_stack ∧
      (peelGe n s base).1.local_var_map = s.local_var_map := by
  induction n with
  | zero => intro s base; exact ⟨rfl, rfl, rfl⟩
  | succ n ih =>
    intro s base
    simpa only [peelGe] using
      ih ((s.gen_location none).2.add_constraint (s.gen_location none).1.id
        (Constraint.Load base.id)) (s.gen_location none).1

/-- The peel loop preserves well-formedness. -/
theorem wf_peelGe (n : Nat) (s : SimpleAnderson τ ι) (base : Location τ)
    (hwf : wf s) : wf (peelGe n s base).1 := by
  obtain ⟨h1, h2, _⟩ := peelGe_spec n s base hwf
  have hwfe : s.constraints.length = s.location_factory.counter := hwf
  show (peelGe n s base).1.constraints.length
      = (peelGe n s base).1.location_factory.counter
  rw [h1, h2, List.length_append, chainGe_length, hwfe]

end SimpleAnderson

end Rudra

namespace Rudra

namespace SimpleAnderson

variable {τ ι : Type} [DecidableEq ι]

/-- Total number of constraints in a chain. -/
theorem chainGe_flatten_length (n : Nat) :
    ∀ s0 c : Nat, (chainGe s0 c n).flatten.length = n := by
  induction n with
  | zero => intro s0 c; rfl
  | succ n ih =>
    intro s0 c
    simp [chainGe, ih]

/-- A constraint referring to a not-yet-allocated location is in no bucket
of a closed state. -/
theorem not_mem_bucket_of_closed (st : SimpleAnderson τ ι) (hcl : closedRefs st)
    (i : Nat) (hi : i < st.constraints.length) (c : Constraint)
    (hc : st.location_factory.counter ≤ c.srcId) :
    c ∉ st.constraints.getD i [] := by
  intro hmem
  have h := hcl _ (getD_mem _ _ _ hi) _ hmem
  omega

/-- Reduction of `handle_place_to_place` in the depth-`(0,0)` case. -/
theorem handle_place_to_place_zz (st : SimpleAnderson τ ι) (dst src : Place τ)
    (h1 : dst.deref_count = 0) (h2 : src.deref_count = 0) :
    st.handle_place_to_place dst src
      = st.add_constraint dst.base.id (.Copy src.base.id) := by
  unfold handle_place_to_place
  rw [h1, h2]

/-- Reduction of `handle_place_to_place` in the depth-`(0, s+1)` case. -/
theorem handle_place_to_place_zs (st : SimpleAnderson τ ι) (dst src : Place τ)
    (h1 : dst.deref_count = 0) (s' : Nat) (h2 : src.deref_count = s' + 1) :
    st.handle_place_to_place dst src
      = (peelGe s' st src.base).1.add_constraint dst.base.id
          (.Load (peelGe s' st src.base).2.id) := by
  unfold handle_place_to_place
  rw [h1, h2, peelGt_eq_peelGe]
  rfl

/-- Reduction of `handle_place_to_place` in the depth-`(d+1, s)` case. -/
theorem handle_place_to_place_ss (st : SimpleAnderson τ ι) (dst src : Place τ)
    (d' : Nat) (h1 : dst.deref_count = d' + 1) :
    st.handle_place_to_place dst src
      = (peelGe d' (peelGe src.deref_count st src.base).1 dst.base).1.add_constraint
          (peelGe d' (peelGe src.deref_count st src.base).1 dst.base).2.id
          (.Store (peelGe src.deref_count st src.base).2.id) := by
  have hstep : st.handle_place_to_place dst src
      = (peelGt (d' + 1) (peelGe src.deref_count st src.base).1 dst.base).1.add_constraint
          (peelGt (d' + 1) (peelGe src.deref_count st src.base).1 dst.base).2.id
          (.Store (peelGe src.deref_count st src.base).2.id) := by
    unfold handle_place_to_place
    rw [h1]
    rfl
  rw [hstep, peelGt_eq_peelGe]

end SimpleAnderson

end Rudra

namespace Rudra

namespace SimpleAnderson

variable {τ ι : Type} [DecidableEq ι]

/-- C2: a place-to-place assignment with depths `d = depth(dst)`,
`s = depth(src)` and total dereference depth `k = d + s ≥ 2` allocates
exactly `k − 1` fresh intermediate locations, and stores `k − 1` chained
`Load` constraints plus exactly one final constraint: a `Load` when
`d = 0` (and `s ≥ 1`), and a `Store` when `d ≥ 1` and `s ≥ 1` (the source
fully peeled to depth 0, the destination down to depth 1). -/
theorem c2_place_to_place_peeling (st : SimpleAnderson τ ι) (dst src : Place τ)
    (hwf : wf st) (hcl : closedRefs st)
    (hdst : dst.base.id < st.location_factory.counter)
    (hsrc : src.base.id < st.location_factory.counter)
    (hk : 2 ≤ dst.deref_count + src.deref_count) :
    (st.handle_place_to_place dst src).location_factory.counter
        = st.location_factory.counter + (dst.deref_count + src.deref_count - 1) ∧
    (dst.deref_count = 0 →
      loadCount (st.handle_place_to_place dst src)
          = loadCount st + (dst.deref_count + src.deref_count) ∧
      totalCount (st.handle_place_to_place dst src)
          = totalCount st + (dst.deref_count + src.deref_count)) ∧
    (1 ≤ dst.deref_count → 1 ≤ src.deref_count →
      loadCount (st.handle_place_to_place dst src)
          = loadCount st + (dst.deref_count + src.deref_count - 1) ∧
      storeCount (st.handle_place_to_place dst src)
          = storeCount st + 1 ∧
      totalCount (st.handle_place_to_place dst src)
          = totalCount st + (dst.deref_count + src.deref_count)) := by
  have hwfe : st.constraints.length = st.location_factory.counter := hwf
  cases hd : dst.deref_count with
  | zero =>
    cases hs : src.deref_count with
    | zero => exact absurd hk (by omega)
    | succ s' =>
      have hs1 : 1 ≤ s' := by omega
      have hred := handle_place_to_place_zs st dst src hd s' hs
      obtain ⟨h1, h2, h3⟩ := peelGe_spec s' st src.base hwf
      have hfid : (peelGe s' st src.base).2.id
          = st.location_factory.counter + s' - 1 := by
        rw [h3, if_neg (by omega : ¬ s' = 0)]
      have hlenq : (peelGe s' st src.base).1.constraints.length
          = st.location_factory.counter + s' := by
        rw [h1, List.length_append, chainGe_length, hwfe]
      have hidx : dst.base.id < (peelGe s' st src.base).1.constraints.length := by
        omega
      have hbucket : (peelGe s' st src.base).1.constraints.getD dst.base.id []
          = st.constraints.getD dst.base.id [] := by
        rw [h1]
        exact List.getD_append _ _ _ _ (by omega)
      have hnm : Constraint.Load (st.location_factory.counter + s' - 1)
          ∉ (peelGe s' st src.base).1.constraints.getD dst.base.id [] := by
        rw [hbucket]
        refine not_mem_bucket_of_closed st hcl _ (by omega) _ ?_
        simp only [Constraint.srcId]
        omega
      rw [hfid] at hred
      rw [hred]
      refine ⟨?_, ?_, ?_⟩
      · rw [add_constraint_location_factory, h2]
        omega
      · intro _
        constructor
        · simp only [loadCount, flatC, add_constraint]
          rw [countP_set_insert _ _ _ _ hidx hnm, h1, List.flatten_append,
            List.countP_append,
            chainGe_countP (fun c => c.isLoad) true (fun x => rfl) s']
          simp [Constraint.isLoad]
          try omega
        · simp only [totalCount, flatC, add_constraint]
          rw [length_set_insert _ _ _ hidx hnm, h1, List.flatten_append,
            List.length_append, chainGe_flatten_length]
          omega
      · intro h0 _
        exact absurd h0 (by omega)
  | succ d' =>
    have hred := handle_place_to_place_ss st dst src d' hd
    obtain ⟨hq1, hq2, hq3⟩ := peelGe_spec src.deref_count st src.base hwf
    have hwfq := wf_peelGe src.deref_count st src.base hwf
    obtain ⟨hr1, hr2, hr3⟩ :=
      peelGe_spec d' (peelGe src.deref_count st src.base).1 dst.base hwfq
    generalize hqg : peelGe src.deref_count st src.base = q
      at hq1 hq2 hq3 hwfq hr1 hr2 hr3 hred
    generalize hrg : peelGe d' q.1 dst.base = r at hr1 hr2 hr3 hred
    have hlenq : q.1.constraints.length
        = st.location_factory.counter + src.deref_count := by
      rw [hq1, List.length_append, chainGe_length, hwfe]
    have hlenr : r.1.constraints.length
        = st.location_factory.counter + src.deref_count + d' := by
      rw [hr1, List.length_append, chainGe_length, hlenq]
    rw [hred]
    refine ⟨?_, ?_, ?_⟩
    · rw [add_constraint_location_factory, hr2, hq2]
      omega
    · intro h0
      exact absurd h0 (by omega)
    · intro _ hs1
      have hqid : q.2.id = st.location_factory.counter + src.deref_count - 1 := by
        rw [hq3, if_neg (by omega : ¬ src.deref_count = 0)]
      rw [hqid] at hred ⊢
      rcases Nat.eq_zero_or_pos d' with hd0 | hd0
      · subst hd0
        have hrcs : r.1.constraints = q.1.constraints := by
          rw [hr1]
          simp [chainGe]
        have hrid : r.2.id = dst.base.id := by
          rw [hr3]
          simp
        rw [hrid] at *
        have hridx : dst.base.id < r.1.constraints.length := by omega
        have hbucket : r.1.constraints.getD dst.base.id []
            = st.constraints.getD dst.base.id [] := by
          rw [hrcs, hq1]
          exact List.getD_append _ _ _ _ (by omega)
        have hnm : Constraint.Store
              (st.location_factory.counter + src.deref_count - 1)
            ∉ r.1.constraints.getD dst.base.id [] := by
          rw [hbucket]
          refine not_mem_bucket_of_closed st hcl _ (by omega) _ ?_
          simp only [Constraint.srcId]
          omega
        refine ⟨?_, ?_, ?_⟩
        · simp only [loadCount, flatC, add_constraint]
          rw [countP_set_insert _ _ _ _ hridx hnm, hrcs, hq1,
            List.flatten_append, List.countP_append,
            chainGe_countP (fun c => c.isLoad) true (fun x => rfl)
              src.deref_count]
          simp [Constraint.isLoad]
          try omega
        · simp only [storeCount, flatC, add_constraint]
          rw [countP_set_insert _ _ _ _ hridx hnm, hrcs, hq1,
            List.flatten_append, List.countP_append,
            chainGe_countP (fun c => c.isStore) false (fun x => rfl)
              src.deref_count]
          simp [Constraint.isStore]
          try omega
        · simp only [totalCount, flatC, add_constraint]
          rw [length_set_insert _ _ _ hridx hnm, hrcs, hq1,
            List.flatten_append, List.length_append, chainGe_flatten_length]
          omega
      · have hrid : r.2.id
            = st.location_factory.counter + src.deref_count + d' - 1 := by
          rw [hr3, if_neg (by omega : ¬ d' = 0), hq2]
        rw [hrid] at hred ⊢
        have hridx : st.location_factory.counter + src.deref_count + d' - 1
            < r.1.constraints.length := by omega
        have hbmem : r.1.constraints.getD
              (st.location_factory.counter + src.deref_count + d' - 1) []
            ∈ chainGe src.base.id st.location_factory.counter src.deref_count
              ++ chainGe dst.base.id q.1.location_factory.counter d' := by
          have hsplit : r.1.constraints
              = st.constraints
                ++ (chainGe src.base.id st.location_factory.counter
                      src.deref_count
                    ++ chainGe dst.base.id q.1.location_factory.counter d') := by
            rw [hr1, hq1, List.append_assoc]
          rw [hsplit,
            List.getD_append_right _ _ _ _ (by omega)]
          refine getD_mem _ _ _ ?_
          rw [List.length_append, chainGe_length, chainGe_length]
          omega
        have hnm : Constraint.Store
              (st.location_factory.counter + src.deref_count - 1)
            ∉ r.1.constraints.getD
                (st.location_factory.counter + src.deref_count + d' - 1) [] := by
          rcases List.mem_append.mp hbmem with hb | hb
          · obtain ⟨x, hx⟩ := chainGe_buckets _ _ _ _ hb
            rw [hx]
            simp
          · obtain ⟨x, hx⟩ := chainGe_buckets _ _ _ _ hb
            rw [hx]
            simp
        refine ⟨?_, ?_, ?_⟩
        · simp only [loadCount, flatC, add_constraint]
          rw [countP_set_insert _ _ _ _ hridx hnm, hr1, hq1,
            List.flatten_append, List.flatten_append, List.countP_append,
            List.countP_append,
            chainGe_countP (fun c => c.isLoad) true (fun x => rfl)
              src.deref_count,
            chainGe_countP (fun c => c.isLoad) true (fun x => rfl) d']
          simp [Constraint.isLoad]
          try omega
        · simp only [storeCount, flatC, add_constraint]
          rw [countP_set_insert _ _ _ _ hridx hnm, hr1, hq1,
            List.flatten_append, List.flatten_append, List.countP_append,
            List.countP_append,
            chainGe_countP (fun c => c.isStore) false (fun x => rfl)
              src.deref_count,
            chainGe_countP (fun c => c.isStore) false (fun x => rfl) d']
          simp [Constraint.isStore]
          try omega
        · simp only [totalCount, flatC, add_constraint]
          rw [length_set_insert _ _ _ hridx hnm, hr1, hq1,
            List.flatten_append, List.flatten_append, List.length_append,
            List.length_append, chainGe_flatten_length, chainGe_flatten_length]
          omega

end SimpleAnderson

end Rudra

namespace Rudra

namespace SimpleAnderson

variable {τ ι : Type} [DecidableEq ι]

/-- C3: a reference-forming assignment `dst = &src` whose source place has
indirection depth at least 1 produces exactly the state of the plain
place-to-place assignment of the source at depth one less into the same
destination (the `&*` algebraic rewrite), with identical constraints and
fresh locations. -/
theorem c3_handle_ref_deref_rewrite (body : Body τ) (st : SimpleAnderson τ ι)
    (dstP srcP : MirPlace) (dst src : Place τ)
    (hptr : body.place_is_ptr dstP = true)
    (hld : st.lower_mir_place dstP = some (.ok dst))
    (hls : st.lower_mir_place srcP = some (.ok src))
    (hdep : 1 ≤ src.deref_count) :
    handle_ref body st dstP srcP
      = some (st.handle_place_to_place dst ⟨src.base, src.deref_count - 1⟩) := by
  unfold handle_ref handle_ref_checked
  simp only [hptr, hld, hls, if_true]
  unfold handle_ref_core
  rw [if_neg (by omega : ¬ src.deref_count = 0)]

/-- C4: a reference-forming assignment with source depth 0 emits exactly
one constraint and allocates nothing: `AddrOf(src)` at the destination
base when the destination has depth 0, `StoreAddr(src)` at the
destination base when it has depth 1; `add_constraint` itself never
allocates and adds exactly one constraint when it is new. -/
theorem c4_handle_ref_addrof (body : Body τ) (st : SimpleAnderson τ ι)
    (dstP srcP : MirPlace) (dst src : Place τ)
    (hptr : body.place_is_ptr dstP = true)
    (hld : st.lower_mir_place dstP = some (.ok dst))
    (hls : st.lower_mir_place srcP = some (.ok src))
    (hsrc0 : src.deref_count = 0) :
    (dst.deref_count = 0 →
      handle_ref body st dstP srcP
        = some (st.add_constraint dst.base.id (.AddrOf src.base.id))) ∧
    (dst.deref_count = 1 →
      handle_ref body st dstP srcP
        = some (st.add_constraint dst.base.id (.StoreAddr src.base.id))) ∧
    (∀ i c, (st.add_constraint i c).location_factory.counter
        = st.location_factory.counter) ∧
    (∀ i c, i < st.constraints.length → c ∉ st.constraints.getD i [] →
      totalCount (st.add_constraint i c) = totalCount st + 1) := by
  refine ⟨?_, ?_, fun i c => rfl, ?_⟩
  · intro hdst0
    unfold handle_ref handle_ref_checked
    simp only [hptr, hld, hls, if_true]
    unfold handle_ref_core
    rw [if_pos hsrc0, if_pos hdst0]
  · intro hdst1
    unfold handle_ref handle_ref_checked
    simp only [hptr, hld, hls, if_true]
    unfold handle_ref_core
    rw [if_pos hsrc0, if_neg (by omega : ¬ dst.deref_count = 0), hdst1]
    rfl
  · intro i c hi hc
    simp only [totalCount, flatC, add_constraint]
    rw [length_set_insert _ _ _ hi hc]

/-- C6: the `assert!(dst_is_ptr)` in `handle_ref` is a fail-fast check: a
pointer-typed destination passes it (execution continues with the body
after the assertion), a non-pointer-typed destination panics and produces
no state. -/
theorem c6_handle_ref_assert (body : Body τ) (st : SimpleAnderson τ ι)
    (dstP srcP : MirPlace) :
    (body.place_is_ptr dstP = true →
      handle_ref body st dstP srcP = st.handle_ref_checked dstP srcP) ∧
    (body.place_is_ptr dstP = false →
      handle_ref body st dstP srcP = none) := by
  constructor
  · intro h
    simp [handle_ref, h]
  · intro h
    simp [handle_ref, h]

/-- C9: an assignment whose source operand is pointer-typed but whose
destination place is not is a complete no-op: no constraint, no log
entry, no panic. -/
theorem c9_handle_assign_silent (body : Body τ) (st : SimpleAnderson τ ι)
    (dstP : MirPlace) (srcOp : Operand)
    (hsrc : body.operand_is_ptr srcOp = true)
    (hdst : body.place_is_ptr dstP = false) :
    handle_assign body st dstP srcOp = some st := by
  unfold handle_assign
  simp [hsrc, hdst]

end SimpleAnderson

/-- C1 (evaluation at the failing input): after `analyze` of instance `0`,
the reset step of a subsequent `analyze` (`clear`) empties the factory,
the buckets and the call stack but leaves the stale `local_var_map` entry,
so the second `analyze` of the same instance allocates no locations at
all. -/
theorem c1_clear_keeps_local_var_map :
    ((SimpleAnderson.analyze rcx1 SimpleAnderson.new 0).map fun s1 =>
        ((s1.clear.local_var_map.length, s1.clear.location_factory.counter),
          (s1.clear.constraints.length, s1.clear.call_stack.length)))
      = some ((1, 0), (0, 0)) ∧
    ((SimpleAnderson.analyze rcx1 SimpleAnderson.new 0).bind fun s1 =>
        (SimpleAnderson.analyze rcx1 s1 0).map fun s2 =>
          (s2.local_var_map.length, s2.location_factory.counter))
      = some (1, 0) := by
  exact ⟨rfl, rfl⟩

/-- Witness for the C2 theorem at a concrete depth-(1,1) assignment
(`*x = *p`): one fresh location, one chained `Load`, one final `Store`. -/
theorem c2_witness :
    (stFrame.handle_place_to_place ⟨⟨0, none⟩, 1⟩ ⟨⟨1, none⟩, 1⟩).location_factory.counter
        = stFrame.location_factory.counter + (1 + 1 - 1) ∧
    SimpleAnderson.loadCount
        (stFrame.handle_place_to_place ⟨⟨0, none⟩, 1⟩ ⟨⟨1, none⟩, 1⟩)
        = SimpleAnderson.loadCount stFrame + (1 + 1 - 1) ∧
    SimpleAnderson.storeCount
        (stFrame.handle_place_to_place ⟨⟨0, none⟩, 1⟩ ⟨⟨1, none⟩, 1⟩)
        = SimpleAnderson.storeCount stFrame + 1 := by
  have h := SimpleAnderson.c2_place_to_place_peeling stFrame
    ⟨⟨0, none⟩, 1⟩ ⟨⟨1, none⟩, 1⟩ rfl
    (show ∀ b ∈ stFrame.constraints, ∀ c ∈ b,
        c.srcId < stFrame.location_factory.counter by decide)
    (by decide) (by decide) (by decide)
  exact ⟨h.1, (h.2.2 (by decide) (by decide)).1, (h.2.2 (by decide) (by decide)).2.1⟩

/-- Witness for the C3 theorem: `x = &*p` with `p` at depth 1 is exactly
`x = p`, one `Copy(p)` constraint at `x` and no fresh locations. -/
theorem c3_witness :
    SimpleAnderson.handle_ref allPtrBody stFrame ⟨0, []⟩ ⟨1, [.Deref]⟩
      = some (stFrame.handle_place_to_place ⟨⟨0, none⟩, 0⟩ ⟨⟨1, none⟩, 0⟩) ∧
    stFrame.handle_place_to_place ⟨⟨0, none⟩, 0⟩ ⟨⟨1, none⟩, 0⟩
      = { stFrame with constraints := [[Constraint.Copy 1], []] } := by
  constructor
  · exact SimpleAnderson.c3_handle_ref_deref_rewrite allPtrBody stFrame
      ⟨0, []⟩ ⟨1, [.Deref]⟩ ⟨⟨0, none⟩, 0⟩ ⟨⟨1, none⟩, 1⟩ (by rfl) (by rfl)
      (by rfl) (by decide)
  · decide

/-- Witness for the C4 theorem: `x = &y` gives `AddrOf(y)` at `x`, and
`*x = &y` gives `StoreAddr(y)` at `x`, with no fresh locations. -/
theorem c4_witness :
    SimpleAnderson.handle_ref allPtrBody stFrame ⟨0, []⟩ ⟨1, []⟩
      = some (stFrame.add_constraint 0 (.AddrOf 1)) ∧
    SimpleAnderson.handle_ref allPtrBody stFrame ⟨0, [.Deref]⟩ ⟨1, []⟩
      = some (stFrame.add_constraint 0 (.StoreAddr 1)) := by
  constructor
  · exact (SimpleAnderson.c4_handle_ref_addrof allPtrBody stFrame
      ⟨0, []⟩ ⟨1, []⟩ ⟨⟨0, none⟩, 0⟩ ⟨⟨1, none⟩, 0⟩ (by rfl) (by rfl) (by rfl)
      (by rfl)).1 (by rfl)
  · exact ((SimpleAnderson.c4_handle_ref_addrof allPtrBody stFrame
      ⟨0, [.Deref]⟩ ⟨1, []⟩ ⟨⟨0, none⟩, 1⟩ ⟨⟨1, none⟩, 0⟩ (by rfl) (by rfl)
      (by rfl) (by rfl)).2.1) (by rfl)

/-- Witness for the C6 theorem: with a pointer-typed destination the
assertion passes; with a non-pointer-typed one the handler panics. -/
theorem c6_witness :
    SimpleAnderson.handle_ref allPtrBody stFrame ⟨0, []⟩ ⟨1, []⟩
      = stFrame.handle_ref_checked ⟨0, []⟩ ⟨1, []⟩ ∧
    SimpleAnderson.handle_ref ptrSrcOnlyBody stFrame ⟨0, []⟩ ⟨1, []⟩ = none := by
  exact ⟨(SimpleAnderson.c6_handle_ref_assert allPtrBody stFrame
      ⟨0, []⟩ ⟨1, []⟩).1 rfl,
    (SimpleAnderson.c6_handle_ref_assert ptrSrcOnlyBody stFrame
      ⟨0, []⟩ ⟨1, []⟩).2 rfl⟩

/-- Witness for the C9 theorem: a pointer-typed constant assigned to a
non-pointer destination is silently skipped. -/
theorem c9_witness :
    SimpleAnderson.handle_assign ptrSrcOnlyBody stFrame ⟨0, []⟩ .Constant
      = some stFrame :=
  SimpleAnderson.c9_handle_assign_silent ptrSrcOnlyBody stFrame ⟨0, []⟩
    .Constant rfl rfl

end Rudra

namespace Rudra

namespace SimpleAnderson

variable {τ ι : Type} [DecidableEq ι]

/-- `bucketInsert` keeps buckets duplicate-free. -/
theorem bucketInsert_nodup (c : Constraint) (b : List Constraint)
    (h : b.Nodup) : (bucketInsert c b).Nodup := by
  unfold bucketInsert
  split
  · exact h
  · rw [List.nodup_append]
    refine ⟨h, List.nodup_singleton c, ?_⟩
    intro x hx hc
    simp only [List.mem_singleton] at hc
    subst hc
    exact absurd hx (by assumption)

/-- `clear` leaves every bucket duplicate-free (there are none). -/
theorem nodup_clear (s : SimpleAnderson τ ι) : bucketsNodup s.clear := by
  intro b hb
  simp [clear] at hb

/-- `gen_location` preserves duplicate-freedom of buckets. -/
theorem nodup_gen_location (s : SimpleAnderson τ ι) (ty : Option τ)
    (h : bucketsNodup s) : bucketsNodup (s.gen_location ty).2 := by
  intro b hb
  rw [gen_location_constraints] at hb
  rcases List.mem_append.mp hb with hb | hb
  · exact h b hb
  · simp only [List.mem_singleton] at hb
    subst hb
    exact List.nodup_nil

/-- `add_constraint` preserves duplicate-freedom of buckets. -/
theorem nodup_add_constraint (s : SimpleAnderson τ ι) (i : Nat)
    (c : Constraint) (h : bucketsNodup s) :
    bucketsNodup (s.add_constraint i c) := by
  intro b hb
  simp only [add_constraint] at hb
  rcases List.mem_or_eq_of_mem_set hb with hb | hb
  · exact h b hb
  · subst hb
    refine bucketInsert_nodup _ _ ?_
    rcases Nat.lt_or_ge i s.constraints.length with hi | hi
    · exact h _ (getD_mem _ _ _ hi)
    · rw [List.getD_eq_default _ _ hi]
      exact List.nodup_nil

/-- The peel loop preserves duplicate-freedom of buckets. -/
theorem nodup_peelGe (n : Nat) :
    ∀ (s : SimpleAnderson τ ι) (base : Location τ), bucketsNodup s →
      bucketsNodup (peelGe n s base).1 := by
  induction n with
  | zero => intro s base h; exact h
  | succ n ih =>
    intro s base h
    simp only [peelGe]
    exact ih _ _ (nodup_add_constraint _ _ _ (nodup_gen_location _ _ h))

/-- `peelGt` preserves well-formedness. -/
theorem wf_peelGt (n : Nat) (s : SimpleAnderson τ ι) (base : Location τ)
    (hwf : wf s) : wf (peelGt n s base).1 := by
  cases n with
  | zero => exact hwf
  | succ m =>
    rw [peelGt_eq_peelGe]
    exact wf_peelGe m s base hwf

/-- `peelGt` preserves duplicate-freedom of buckets. -/
theorem nodup_peelGt (n : Nat) (s : SimpleAnderson τ ι) (base : Location τ)
    (h : bucketsNodup s) : bucketsNodup (peelGt n s base).1 := by
  cases n with
  | zero => exact h
  | succ m =>
    rw [peelGt_eq_peelGe]
    exact nodup_peelGe m s base h

/-- `handle_place_to_place` preserves well-formedness. -/
theorem wf_handle_place_to_place (s : SimpleAnderson τ ι) (dst src : Place τ)
    (hwf : wf s) : wf (s.handle_place_to_place dst src) := by
  unfold handle_place_to_place
  rcases dst.deref_count with _ | d <;> rcases src.deref_count with _ | n <;>
    simp only <;>
    apply wf_add_constraint <;>
    first
      | exact hwf
      | exact wf_peelGt _ _ _ hwf
      | exact wf_peelGt _ _ _ (wf_peelGe _ _ _ hwf)

/-- `handle_place_to_place` preserves duplicate-freedom of buckets. -/
theorem nodup_handle_place_to_place (s : SimpleAnderson τ ι)
    (dst src : Place τ) (h : bucketsNodup s) :
    bucketsNodup (s.handle_place_to_place dst src) := by
  unfold handle_place_to_place
  rcases dst.deref_count with _ | d <;> rcases src.deref_count with _ | n <;>
    simp only <;>
    apply nodup_add_constraint <;>
    first
      | exact h
      | exact nodup_peelGt _ _ _ h
      | exact nodup_peelGt _ _ _ (nodup_peelGe _ _ _ h)

/-- `handle_ref_core` preserves well-formedness. -/
theorem wf_handle_ref_core (s : SimpleAnderson τ ι) (dst src : Place τ)
    (hwf : wf s) : wf (s.handle_ref_core dst src) := by
  unfold handle_ref_core
  split
  · split
    · exact wf_add_constraint _ _ _ hwf
    · exact wf_add_constraint _ _ _ (wf_peelGt _ _ _ hwf)
  · exact wf_handle_place_to_place _ _ _ hwf

/-- `handle_ref_core` preserves duplicate-freedom of buckets. -/
theorem nodup_handle_ref_core (s : SimpleAnderson τ ι) (dst src : Place τ)
    (h : bucketsNodup s) : bucketsNodup (s.handle_ref_core dst src) := by
  unfold handle_ref_core
  split
  · split
    · exact nodup_add_constraint _ _ _ h
    · exact nodup_add_constraint _ _ _ (nodup_peelGt _ _ _ h)
  · exact nodup_handle_place_to_place _ _ _ h

/-- `log_err` changes nothing but the diagnostic channel. -/
theorem log_err_constraints (s : SimpleAnderson τ ι) (e : SimpleAndersonError) :
    (s.log_err e).constraints = s.constraints := rfl

/-- `log_err` does not touch the factory. -/
theorem log_err_location_factory (s : SimpleAnderson τ ι)
    (e : SimpleAndersonError) :
    (s.log_err e).location_factory = s.location_factory := rfl

/-- `log_err` preserves well-formedness. -/
theorem wf_log_err (s : SimpleAnderson τ ι) (e : SimpleAndersonError)
    (hwf : wf s) : wf (s.log_err e) := hwf

/-- `log_err` preserves duplicate-freedom of buckets. -/
theorem nodup_log_err (s : SimpleAnderson τ ι) (e : SimpleAndersonError)
    (h : bucketsNodup s) : bucketsNodup (s.log_err e) := h

/-- Diagnostic-count effect of `log_err`. -/
theorem countCC_log_err (s : SimpleAnderson τ ι) (e : SimpleAndersonError) :
    countCC (s.log_err e).diagLog
      = countCC s.diagLog + (if e.isConstraintCheck then 1 else 0) := by
  simp only [countCC, log_err, List.countP_append, List.countP_cons,
    List.countP_nil]
  omega

end SimpleAnderson

end Rudra

namespace Rudra

namespace SimpleAnderson

variable {τ ι : Type} [DecidableEq ι]

/-- `peelGt` does not touch the diagnostic channel, call stack or
memoization table. -/
theorem peelGt_other_fields (n : Nat) (s : SimpleAnderson τ ι)
    (base : Location τ) :
    (peelGt n s base).1.diagLog = s.diagLog ∧
    (peelGt n s base).1.call_stack = s.call_stack ∧
    (peelGt n s base).1.local_var_map = s.local_var_map := by
  cases n with
  | zero => exact ⟨rfl, rfl, rfl⟩
  | succ m =>
    rw [peelGt_eq_peelGe]
    exact peelGe_other_fields m s base

/-- `handle_place_to_place` does not log. -/
theorem handle_place_to_place_diagLog (s : SimpleAnderson τ ι)
    (dst src : Place τ) :
    (s.handle_place_to_place dst src).diagLog = s.diagLog := by
  unfold handle_place_to_place
  rcases dst.deref_count with _ | d <;> rcases src.deref_count with _ | n <;>
    simp only <;>
    rw [add_constraint_diagLog] <;>
    first
      | rfl
      | exact (peelGt_other_fields _ _ _).1
      | rw [(peelGt_other_fields _ _ _).1]
        exact (peelGe_other_fields _ _ _).1

/-- `handle_ref_core` does not log. -/
theorem handle_ref_core_diagLog (s : SimpleAnderson τ ι) (dst src : Place τ) :
    (s.handle_ref_core dst src).diagLog = s.diagLog := by
  unfold handle_ref_core
  split
  · split
    · rw [add_constraint_diagLog]
    · rw [add_constraint_diagLog]
      exact (peelGt_other_fields _ _ _).1
  · exact handle_place_to_place_diagLog _ _ _

end SimpleAnderson

end Rudra

namespace Rudra

namespace SimpleAnderson

variable {τ ι : Type} [DecidableEq ι]

/-- The projection loop only ever fails with `UnsupportedProjection` on the
whole place. -/
theorem projLoop_error_shape (place : MirPlace) :
    ∀ (l : List ProjectionElem) (acc : Nat) (e : SimpleAndersonError),
      projLoop place l acc = .error e → e = .UnsupportedProjection place := by
  intro l
  induction l with
  | nil => intro acc e h; exact Except.noConfusion h
  | cons hd tl ih =>
    intro acc e h
    cases hd with
    | Deref => exact ih (acc + 1) e h
    | Field idx =>
      simp only [projLoop] at h
      exact (Except.error.inj h).symm
    | Index li =>
      simp only [projLoop] at h
      exact (Except.error.inj h).symm
    | OtherProjection =>
      simp only [projLoop] at h
      exact (Except.error.inj h).symm

/-- A failing place lowering reports an error that is not
`ConstraintCheck`. -/
theorem lower_mir_place_error_not_cc (s : SimpleAnderson τ ι) (p : MirPlace)
    (e : SimpleAndersonError) (h : s.lower_mir_place p = some (.error e)) :
    e.isConstraintCheck = false := by
  unfold lower_mir_place at h
  split at h
  · exact Option.noConfusion h
  · split at h
    · obtain he := Except.error.inj (Option.some.inj h)
      rename_i e' heq
      have := projLoop_error_shape p p.projection 0 e' heq
      subst this
      subst he
      rfl
    · exact Except.noConfusion (Option.some.inj h)

/-- Unfolding of `handle_ref` as a conditional. -/
theorem handle_ref_eq_ite (body : Body τ) (s : SimpleAnderson τ ι)
    (dstP srcP : MirPlace) :
    handle_ref body s dstP srcP
      = if body.place_is_ptr dstP = true then s.handle_ref_checked dstP srcP
        else none := rfl

/-- Any state produced by `handle_ref_checked` has the same
`ConstraintCheck` count and inherits well-formedness and bucket
duplicate-freedom. -/
theorem preserve_handle_ref_checked (s : SimpleAnderson τ ι)
    (dstP srcP : MirPlace) :
    ∀ s', s.handle_ref_checked dstP srcP = some s' →
      countCC s'.diagLog = countCC s.diagLog ∧
      (wf s → wf s') ∧
      (bucketsNodup s → bucketsNodup s') := by
  intro s' h
  unfold handle_ref_checked at h
  split at h
  · exact Option.noConfusion h
  · rename_i e heq
    obtain rfl := Option.some.inj h
    have he := lower_mir_place_error_not_cc s dstP e heq
    refine ⟨?_, fun hw => hw, fun hn => hn⟩
    rw [countCC_log_err, he]
    simp
  · split at h
    · exact Option.noConfusion h
    · rename_i e heq
      obtain rfl := Option.some.inj h
      have he := lower_mir_place_error_not_cc s srcP e heq
      refine ⟨?_, fun hw => hw, fun hn => hn⟩
      rw [countCC_log_err, he]
      simp
    · obtain rfl := Option.some.inj h
      refine ⟨?_, ?_, ?_⟩
      · rw [handle_ref_core_diagLog]
      · exact wf_handle_ref_core _ _ _
      · exact nodup_handle_ref_core _ _ _

/-- Any state produced by `handle_ref` has the same `ConstraintCheck`
count and inherits the invariants. -/
theorem preserve_handle_ref (body : Body τ) (s : SimpleAnderson τ ι)
    (dstP srcP : MirPlace) :
    ∀ s', handle_ref body s dstP srcP = some s' →
      countCC s'.diagLog = countCC s.diagLog ∧
      (wf s → wf s') ∧
      (bucketsNodup s → bucketsNodup s') := by
  intro s' h
  rw [handle_ref_eq_ite] at h
  split at h
  · exact preserve_handle_ref_checked s dstP srcP s' h
  · exact Option.noConfusion h

/-- Unfolding of `handle_assign` as a conditional. -/
theorem handle_assign_eq_ite (body : Body τ) (s : SimpleAnderson τ ι)
    (dstP : MirPlace) (srcOp : Operand) :
    handle_assign body s dstP srcOp
      = if body.operand_is_ptr srcOp && body.place_is_ptr dstP then
          match srcOp with
          | .Copy srcPlace | .Move srcPlace =>
            match s.lower_mir_place dstP with
            | none => none
            | some (.error e) => some (s.log_err e)
            | some (.ok dstPlace) =>
              match s.lower_mir_place srcPlace with
              | none => none
              | some (.error e) => some (s.log_err e)
              | some (.ok srcP) => some (s.handle_place_to_place dstPlace srcP)
          | .Constant => some (s.log_err (.UnsupportedConstantPointer dstP srcOp))
        else if body.place_is_ptr dstP && !body.operand_is_ptr srcOp then
          some (s.log_err (.UnsupportedConstantPointer dstP srcOp))
        else
          some s := rfl

/-- Any state produced by `handle_assign` has the same `ConstraintCheck`
count and inherits the invariants. -/
theorem preserve_handle_assign (body : Body τ) (s : SimpleAnderson τ ι)
    (dstP : MirPlace) (srcOp : Operand) :
    ∀ s', handle_assign body s dstP srcOp = some s' →
      countCC s'.diagLog = countCC s.diagLog ∧
      (wf s → wf s') ∧
      (bucketsNodup s → bucketsNodup s') := by
  intro s' h
  rw [handle_assign_eq_ite] at h
  split at h
  · split at h
    · split at h
      · exact Option.noConfusion h
      · rename_i e heq
        obtain rfl := Option.some.inj h
        have he := lower_mir_place_error_not_cc s dstP e heq
        refine ⟨?_, fun hw => hw, fun hn => hn⟩
        rw [countCC_log_err, he]
        simp
      · split at h
        · exact Option.noConfusion h
        · rename_i e heq
          obtain rfl := Option.some.inj h
          have he := lower_mir_place_error_not_cc s _ e heq
          refine ⟨?_, fun hw => hw, fun hn => hn⟩
          rw [countCC_log_err, he]
          simp
        · obtain rfl := Option.some.inj h
          refine ⟨?_, ?_, ?_⟩
          · rw [handle_place_to_place_diagLog]
          · exact wf_handle_place_to_place _ _ _
          · exact nodup_handle_place_to_place _ _ _
    · split at h
      · exact Option.noConfusion h
      · rename_i e heq
        obtain rfl := Option.some.inj h
        have he := lower_mir_place_error_not_cc s dstP e heq
        refine ⟨?_, fun hw => hw, fun hn => hn⟩
        rw [countCC_log_err, he]
        simp
      · split at h
        · exact Option.noConfusion h
        · rename_i e heq
          obtain rfl := Option.some.inj h
          have he := lower_mir_place_error_not_cc s _ e heq
          refine ⟨?_, fun hw => hw, fun hn => hn⟩
          rw [countCC_log_err, he]
          simp
        · obtain rfl := Option.some.inj h
          refine ⟨?_, ?_, ?_⟩
          · rw [handle_place_to_place_diagLog]
          · exact wf_handle_place_to_place _ _ _
          · exact nodup_handle_place_to_place _ _ _
    · obtain rfl := Option.some.inj h
      refine ⟨?_, fun hw => hw, fun hn => hn⟩
      rw [countCC_log_err]
      simp [SimpleAndersonError.isConstraintCheck]
  · split at h
    · obtain rfl := Option.some.inj h
      refine ⟨?_, fun hw => hw, fun hn => hn⟩
      rw [countCC_log_err]
      simp [SimpleAndersonError.isConstraintCheck]
    · obtain rfl := Option.some.inj h
      exact ⟨rfl, fun hw => hw, fun hn => hn⟩

/-- Any state produced by one statement dispatch has the same
`ConstraintCheck` count and inherits the invariants. -/
theorem preserve_handle_statement (body : Body τ) (s : SimpleAnderson τ ι)
    (stmt : StatementKind) :
    ∀ s', handle_statement body s stmt = some s' →
      countCC s'.diagLog = countCC s.diagLog ∧
      (wf s → wf s') ∧
      (bucketsNodup s → bucketsNodup s') := by
  intro s' h
  rcases stmt with ⟨dstP, rv⟩ | l | l | _ | _
  · rcases rv with op | op | p | p | _ | _ | _ | _
    · exact preserve_handle_assign body s dstP op s' h
    · exact preserve_handle_assign body s dstP op s' h
    · exact preserve_handle_ref body s dstP p s' h
    · exact preserve_handle_ref body s dstP p s' h
    · obtain rfl := Option.some.inj h
      exact ⟨rfl, fun hw => hw, fun hn => hn⟩
    · obtain rfl := Option.some.inj h
      exact ⟨rfl, fun hw => hw, fun hn => hn⟩
    · obtain rfl := Option.some.inj h
      exact ⟨rfl, fun hw => hw, fun hn => hn⟩
    · obtain rfl := Option.some.inj h
      refine ⟨?_, fun hw => hw, fun hn => hn⟩
      rw [countCC_log_err]
      simp [SimpleAndersonError.isConstraintCheck]
  · obtain rfl := Option.some.inj h
    exact ⟨rfl, fun hw => hw, fun hn => hn⟩
  · obtain rfl := Option.some.inj h
    exact ⟨rfl, fun hw => hw, fun hn => hn⟩
  · obtain rfl := Option.some.inj h
    exact ⟨rfl, fun hw => hw, fun hn => hn⟩
  · obtain rfl := Option.some.inj h
    refine ⟨?_, fun hw => hw, fun hn => hn⟩
    rw [countCC_log_err]
    simp [SimpleAndersonError.isConstraintCheck]

end SimpleAnderson

end Rudra

namespace Rudra

namespace SimpleAnderson

variable {τ ι : Type} [DecidableEq ι]

/-- A panic propagates through the rest of a statement list. -/
theorem runStatements_none (body : Body τ) (stmts : List StatementKind) :
    runStatements body (none : Option (SimpleAnderson τ ι)) stmts = none := by
  induction stmts with
  | nil => rfl
  | cons s t ih =>
    simp only [runStatements, List.foldl_cons, Option.none_bind] at ih ⊢
    exact ih

/-- A panic propagates through the rest of the block list. -/
theorem runBlocks_none (body : Body τ) (blocks : List (List StatementKind)) :
    runBlocks body (none : Option (SimpleAnderson τ ι)) blocks = none := by
  induction blocks with
  | nil => rfl
  | cons b t ih =>
    simp only [runBlocks, List.foldl_cons] at ih ⊢
    rw [show runStatements body none b = none from runStatements_none body b]
    exact ih

/-- One step of the statement loop. -/
theorem runStatements_cons (body : Body τ) (s : SimpleAnderson τ ι)
    (st1 : StatementKind) (t : List StatementKind) :
    runStatements body (some s) (st1 :: t)
      = runStatements body (handle_statement body s st1) t := by
  simp only [runStatements, List.foldl_cons, Option.some_bind]

/-- Statement lists preserve the diagnostic count and the invariants. -/
theorem preserve_runStatements (body : Body τ) (stmts : List StatementKind) :
    ∀ (s s' : SimpleAnderson τ ι),
      runStatements body (some s) stmts = some s' →
        countCC s'.diagLog = countCC s.diagLog ∧
        (wf s → wf s') ∧
        (bucketsNodup s → bucketsNodup s') := by
  induction stmts with
  | nil =>
    intro s s' h
    obtain rfl := Option.some.inj h
    exact ⟨rfl, id, id⟩
  | cons st1 t ih =>
    intro s s' h
    rw [runStatements_cons] at h
    cases hh : handle_statement body s st1 with
    | none =>
      rw [hh, runStatements_none] at h
      exact Option.noConfusion h
    | some s1 =>
      rw [hh] at h
      obtain ⟨h1, h2, h3⟩ := preserve_handle_statement body s st1 s1 hh
      obtain ⟨g1, g2, g3⟩ := ih s1 s' h
      exact ⟨g1.trans h1, fun hw => g2 (h2 hw), fun hn => g3 (h3 hn)⟩

/-- Block lists preserve the diagnostic count and the invariants. -/
theorem preserve_runBlocks (body : Body τ)
    (blocks : List (List StatementKind)) :
    ∀ (s s' : SimpleAnderson τ ι),
      runBlocks body (some s) blocks = some s' →
        countCC s'.diagLog = countCC s.diagLog ∧
        (wf s → wf s') ∧
        (bucketsNodup s → bucketsNodup s') := by
  induction blocks with
  | nil =>
    intro s s' h
    obtain rfl := Option.some.inj h
    exact ⟨rfl, id, id⟩
  | cons b t ih =>
    intro s s' h
    have hb : runBlocks body (some s) (b :: t)
        = runBlocks body (runStatements body (some s) b) t := by
      simp only [runBlocks, List.foldl_cons]
    rw [hb] at h
    cases hh : runStatements body (some s) b with
    | none =>
      rw [hh, runBlocks_none] at h
      exact Option.noConfusion h
    | some s1 =>
      rw [hh] at h
      obtain ⟨h1, h2, h3⟩ := preserve_runStatements body b s s1 hh
      obtain ⟨g1, g2, g3⟩ := ih s1 s' h
      exact ⟨g1.trans h1, fun hw => g2 (h2 hw), fun hn => g3 (h3 hn)⟩

/-- The local-allocation loop does not log and preserves the invariants. -/
theorem preserve_genLocations (tys : List τ) :
    ∀ s : SimpleAnderson τ ι,
      (s.genLocations tys).1.diagLog = s.diagLog ∧
      (wf s → wf (s.genLocations tys).1) ∧
      (bucketsNodup s → bucketsNodup (s.genLocations tys).1) := by
  induction tys with
  | nil => intro s; exact ⟨rfl, id, id⟩
  | cons ty t ih =>
    intro s
    obtain ⟨h1, h2, h3⟩ := ih (s.gen_location (some ty)).2
    refine ⟨?_, ?_, ?_⟩
    · show (genLocations (s.gen_location (some ty)).2 t).1.diagLog = s.diagLog
      exact h1.trans (gen_location_diagLog s (some ty))
    · intro hw
      exact h2 (wf_gen_location s (some ty) hw)
    · intro hn
      exact h3 (nodup_gen_location s (some ty) hn)

/-- `visit_body` preserves the diagnostic count and the invariants on any
state it produces. -/
theorem preserve_visit_body (rcx : ι → Option (Body τ)) (inst : ι) :
    ∀ (s s' : SimpleAnderson τ ι), visit_body rcx s inst = some s' →
      countCC s'.diagLog = countCC s.diagLog ∧
      (wf s → wf s') ∧
      (bucketsNodup s → bucketsNodup s') := by
  intro s s' h
  unfold visit_body at h
  split at h
  · obtain rfl := Option.some.inj h
    exact ⟨rfl, id, id⟩
  · split at h
    · obtain rfl := Option.some.inj h
      refine ⟨?_, id, id⟩
      rw [countCC_log_err]
      simp [SimpleAndersonError.isConstraintCheck]
    · rename_i body hbody
      rw [Option.map_eq_some'] at h
      obtain ⟨s3, h3, rfl⟩ := h
      obtain ⟨g1, g2, g3⟩ := preserve_genLocations body.local_decls s
      obtain ⟨f1, f2, f3⟩ := preserve_runBlocks body body.basic_blocks _ s3 h3
      refine ⟨?_, ?_, ?_⟩
      · show countCC s3.diagLog = countCC s.diagLog
        exact f1.trans (congrArg countCC g1)
      · intro hw
        show wf s3
        exact f2 (g2 hw)
      · intro hn
        show bucketsNodup s3
        exact f3 (g3 hn)

/-- Any state produced by `analyze` is well-formed, has duplicate-free
buckets, and carries exactly one new `ConstraintCheck` report as its last
diagnostic entry. -/
theorem preserve_analyze (rcx : ι → Option (Body τ))
    (s : SimpleAnderson τ ι) (inst : ι) :
    ∀ s', analyze rcx s inst = some s' →
      wf s' ∧ bucketsNodup s' ∧
      countCC s'.diagLog = countCC s.diagLog + 1 ∧
      s'.diagLog.getLast? = some .ConstraintCheck := by
  intro s' h
  unfold analyze at h
  rw [Option.map_eq_some'] at h
  obtain ⟨s2, h2, rfl⟩ := h
  obtain ⟨g1, g2, g3⟩ := preserve_visit_body rcx inst s.clear s2 h2
  refine ⟨g2 (wf_clear s), g3 (nodup_clear s), ?_, ?_⟩
  · rw [countCC_log_err]
    have : countCC s.clear.diagLog = countCC s.diagLog := by
      rw [clear_diagLog]
    rw [g1, this]
    rfl
  · show (s2.diagLog ++ [SimpleAndersonError.ConstraintCheck]).getLast?
        = some .ConstraintCheck
    exact List.getLast?_concat _

/-- C7: the bucket-per-location invariant (`number of buckets = location
count`) holds after every engine operation: `gen_location` creates the
bucket and the location together, `clear` resets both to zero,
`add_constraint` keeps the count, any completed `analyze` leaves a
well-formed state, and under the invariant every location id indexes in
bounds. -/
theorem c7_bucket_location_invariant (s : SimpleAnderson τ ι)
    (ty : Option τ) (i : Nat) (c : Constraint)
    (rcx : ι → Option (Body τ)) (inst : ι) :
    (wf s → wf (s.gen_location ty).2) ∧
    wf s.clear ∧
    (wf s → wf (s.add_constraint i c)) ∧
    (∀ s', analyze rcx s inst = some s' → wf s') ∧
    (wf s → ∀ j, j < s.num_locations → j < s.constraints.length) := by
  refine ⟨wf_gen_location s ty, wf_clear s, wf_add_constraint s i c, ?_, ?_⟩
  · intro s' h
    exact (preserve_analyze rcx s inst s' h).1
  · intro hw j hj
    have hwe : s.constraints.length = s.location_factory.counter := hw
    have hje : j < s.location_factory.counter := hj
    omega

/-- C10: every completed `analyze` call reports exactly one new
`ConstraintCheck` condition, as the last entry on the diagnostic channel,
and its kind is `Unimplemented`. -/
theorem c10_analyze_always_reports (rcx : ι → Option (Body τ))
    (s : SimpleAnderson τ ι) (inst : ι) :
    ∀ s', analyze rcx s inst = some s' →
      countCC s'.diagLog = countCC s.diagLog + 1 ∧
      s'.diagLog.getLast? = some .ConstraintCheck ∧
      SimpleAndersonError.kind .ConstraintCheck = .Unimplemented := by
  intro s' h
  obtain ⟨_, _, h3, h4⟩ := preserve_analyze rcx s inst s' h
  exact ⟨h3, h4, rfl⟩

end SimpleAnderson

end Rudra

namespace Rudra

namespace SimpleAnderson

variable {τ ι : Type} [DecidableEq ι]

/-- C8: for a well-formed state with duplicate-free buckets, the
`constraints()` sequence is sorted by ascending location id, every yielded
pair's id is below the location count, every stored `(bucket, constraint)`
pair is yielded, and no pair is yielded twice. -/
theorem c8_constraints_iteration (s : SimpleAnderson τ ι)
    (hwf : wf s) (hnd : bucketsNodup s) :
    List.Sorted (fun p q : Nat × Constraint => p.1 ≤ q.1) s.constraintsList ∧
    (∀ p ∈ s.constraintsList, p.1 < s.num_locations) ∧
    (∀ i, i < s.num_locations →
      ∀ c ∈ s.constraints.getD i [], (i, c) ∈ s.constraintsList) ∧
    s.constraintsList.Nodup := by
  have hwfe : s.constraints.length = s.location_factory.counter := hwf
  refine ⟨?_, ?_, ?_, ?_⟩
  · rw [List.Sorted, constraintsList, List.pairwise_flatten]
    constructor
    · intro l hl
      simp only [List.mem_map] at hl
      obtain ⟨i, _, rfl⟩ := hl
      rw [List.pairwise_map]
      exact List.pairwise_of_forall_mem_list fun a _ b _ => le_refl i
    · rw [List.pairwise_map]
      refine (List.pairwise_lt_range s.num_locations).imp ?_
      intro i j hij x hx y hy
      simp only [List.mem_map] at hx hy
      obtain ⟨cx, _, rfl⟩ := hx
      obtain ⟨cy, _, rfl⟩ := hy
      exact le_of_lt hij
  · intro p hp
    rw [constraintsList, List.mem_flatten] at hp
    obtain ⟨l, hl, hpl⟩ := hp
    simp only [List.mem_map] at hl
    obtain ⟨i, hi, rfl⟩ := hl
    simp only [List.mem_map] at hpl
    obtain ⟨c, _, rfl⟩ := hpl
    exact List.mem_range.mp hi
  · intro i hi c hc
    rw [constraintsList, List.mem_flatten]
    refine ⟨(s.constraints.getD i []).map fun c => (i, c), ?_, ?_⟩
    · exact List.mem_map.mpr ⟨i, List.mem_range.mpr hi, rfl⟩
    · exact List.mem_map.mpr ⟨c, hc, rfl⟩
  · rw [constraintsList, List.nodup_flatten]
    constructor
    · intro l hl
      simp only [List.mem_map] at hl
      obtain ⟨i, hi, rfl⟩ := hl
      refine List.Nodup.map (fun a b hab => congrArg Prod.snd hab) ?_
      have hilt : i < s.constraints.length := by
        have h1 := List.mem_range.mp hi
        have h2 : s.num_locations = s.location_factory.counter := rfl
        omega
      exact hnd _ (getD_mem _ _ _ hilt)
    · rw [List.pairwise_map]
      refine (List.pairwise_lt_range s.num_locations).imp ?_
      intro i j hij
      intro x hx hx'
      simp only [List.mem_map] at hx hx'
      obtain ⟨cx, _, rfl⟩ := hx
      obtain ⟨cy, _, he⟩ := hx'
      have : j = i := congrArg Prod.fst he
      omega

/-- Success of the projection loop on all-dereference lists. -/
theorem projLoop_ok (place : MirPlace) :
    ∀ (l : List ProjectionElem) (acc : Nat), (∀ pr ∈ l, pr = .Deref) →
      projLoop place l acc = .ok (acc + l.length) := by
  intro l
  induction l with
  | nil => intro acc _; rfl
  | cons hd tl ih =>
    intro acc h
    have hhd : hd = .Deref := h hd (List.mem_cons_self hd tl)
    subst hhd
    simp only [projLoop]
    rw [ih (acc + 1) fun pr hpr => h pr (List.mem_cons_of_mem _ hpr)]
    congr 1
    simp
    omega

/-- Failure of the projection loop on any non-dereference projection. -/
theorem projLoop_err (place : MirPlace) :
    ∀ (l : List ProjectionElem) (acc : Nat),
      (∃ pr ∈ l, pr ≠ .Deref) →
      projLoop place l acc = .error (.UnsupportedProjection place) := by
  intro l
  induction l with
  | nil => intro acc h; simp at h
  | cons hd tl ih =>
    intro acc h
    cases hhd : hd with
    | Deref =>
      subst hhd
      obtain ⟨pr, hpr, hne⟩ := h
      rcases List.mem_cons.mp hpr with rfl | hpr
      · exact absurd rfl hne
      · exact ih (acc + 1) ⟨pr, hpr, hne⟩
    | Field idx => rfl
    | Index li => rfl
    | OtherProjection => rfl

end SimpleAnderson

end Rudra

namespace Rudra

namespace SimpleAnderson

variable {τ ι : Type} [DecidableEq ι]

/-- C5: place lowering succeeds exactly when every projection is a
dereference, returning the base location paired with the number of
dereference projections; any other projection kind produces the
`UnsupportedProjection` error, whose only effect is that the current
statement contributes no constraint (and no location) while the statement
loop continues with the rest of the list. -/
theorem c5_lower_mir_place_spec (s : SimpleAnderson τ ι) (p : MirPlace)
    (base : Location τ)
    (hbase : s.local_to_location p.localIdx = some base) :
    (s.lower_mir_place p = some (.ok ⟨base, p.projection.length⟩)
        ↔ ∀ pr ∈ p.projection, pr = .Deref) ∧
    ((∃ pr ∈ p.projection, pr ≠ .Deref) →
      s.lower_mir_place p = some (.error (.UnsupportedProjection p))) ∧
    (∀ (body : Body τ) (rest : List StatementKind) (srcP : MirPlace),
      body.operand_is_ptr (.Copy srcP) = true →
      body.place_is_ptr p = true →
      (∃ pr ∈ p.projection, pr ≠ .Deref) →
      runStatements body (some s) (.Assign p (.Use (.Copy srcP)) :: rest)
          = runStatements body
              (some (s.log_err (.UnsupportedProjection p))) rest ∧
        (s.log_err (.UnsupportedProjection p)).constraints = s.constraints ∧
        (s.log_err (.UnsupportedProjection p)).location_factory
          = s.location_factory) := by
  have hunf : s.lower_mir_place p
      = (match projLoop p p.projection 0 with
         | .error e => some (.error e)
         | .ok count => some (.ok (⟨base, count⟩ : Place τ))) := by
    unfold lower_mir_place
    rw [hbase]
  have herr : (∃ pr ∈ p.projection, pr ≠ .Deref) →
      s.lower_mir_place p = some (.error (.UnsupportedProjection p)) := by
    intro hex
    rw [hunf, projLoop_err p p.projection 0 hex]
  refine ⟨⟨?_, ?_⟩, herr, ?_⟩
  · intro hok
    by_contra hnot
    push_neg at hnot
    rw [herr hnot] at hok
    exact Except.noConfusion (Option.some.inj hok)
  · intro hall
    rw [hunf, projLoop_ok p p.projection 0 hall]
    simp
  · intro body rest srcP hop hpl hex
    refine ⟨?_, rfl, rfl⟩
    rw [runStatements_cons]
    have hstmt : handle_statement body s (.Assign p (.Use (.Copy srcP)))
        = some (s.log_err (.UnsupportedProjection p)) := by
      show handle_assign body s p (.Copy srcP) = _
      rw [handle_assign_eq_ite, hop, hpl]
      simp [herr hex]
    rw [hstmt]

end SimpleAnderson

/-- Witness for the C5 theorem: a field projection makes lowering fail
with `UnsupportedProjection`, and the statement loop continues. -/
theorem c5_witness :
    stFrame.lower_mir_place ⟨0, [.Field 0]⟩
        = some (.error (.UnsupportedProjection ⟨0, [.Field 0]⟩)) ∧
    SimpleAnderson.runStatements ptrSrcOnlyBody (some stFrame)
        [.Assign ⟨0, [.Field 0]⟩ (.Use (.Copy ⟨1, []⟩))]
      = some stFrame := by
  constructor
  · exact (SimpleAnderson.c5_lower_mir_place_spec stFrame ⟨0, [.Field 0]⟩
      ⟨0, none⟩ (by rfl)).2.1 ⟨.Field 0, by simp, by simp⟩
  · decide

/-- Witness for the C7 theorem at concrete states. -/
theorem c7_witness :
    SimpleAnderson.wf (stFrame.gen_location none).2 ∧
    SimpleAnderson.wf stFrame.clear ∧
    SimpleAnderson.wf (stFrame.add_constraint 0 (Constraint.Copy 1)) ∧
    SimpleAnderson.wf
      (⟨⟨0, []⟩, [], [], [(0, [⟨0, none⟩, ⟨1, none⟩])],
        [.ConstraintCheck]⟩ : SimpleAnderson Nat Nat) ∧
    (1 : Nat) < stFrame.constraints.length := by
  obtain ⟨h1, h2, h3, h4, h5⟩ := SimpleAnderson.c7_bucket_location_invariant
    stFrame none 0 (Constraint.Copy 1) rcx1 0
  exact ⟨h1 rfl, h2, h3 rfl, h4 _ (by rfl), h5 rfl 1 (by decide)⟩

/-- Witness for the C8 theorem at a concrete state with one constraint. -/
theorem c8_witness :
    List.Sorted (fun p q : Nat × Constraint => p.1 ≤ q.1)
      (stFrame.add_constraint 0 (Constraint.Copy 1)).constraintsList ∧
    (stFrame.add_constraint 0 (Constraint.Copy 1)).constraintsList.Nodup := by
  obtain ⟨h1, _, _, h4⟩ := SimpleAnderson.c8_constraints_iteration
    (stFrame.add_constraint 0 (Constraint.Copy 1)) (by rfl)
    (show ∀ b ∈ (stFrame.add_constraint 0 (Constraint.Copy 1)).constraints,
        b.Nodup by decide)
  exact ⟨h1, h4⟩

/-- Witness for the C10 theorem at a concrete completed `analyze`. -/
theorem c10_witness :
    SimpleAnderson.countCC
        (⟨⟨1, [some 0]⟩, [], [[]], [(0, [⟨0, some 0⟩])],
          [.ConstraintCheck]⟩ : SimpleAnderson Nat Nat).diagLog
      = SimpleAnderson.countCC
          (SimpleAnderson.new : SimpleAnderson Nat Nat).diagLog + 1 ∧
    (⟨⟨1, [some 0]⟩, [], [[]], [(0, [⟨0, some 0⟩])],
        [.ConstraintCheck]⟩ : SimpleAnderson Nat Nat).diagLog.getLast?
      = some .ConstraintCheck ∧
    SimpleAndersonError.kind .ConstraintCheck = .Unimplemented :=
  SimpleAnderson.c10_analyze_always_reports rcx1 SimpleAnderson.new 0 _ (by rfl)

end Rudra
